import Mathlib

/-!
Verification of the TAP log comparison tool (`buildenv/jenkins/compare_tap.py`).

Strings are modelled through their character lists; Python `str.strip` is
modelled by `strip` (removing whitespace on both ends), Python substring
containment (`in`) by `containsSub`, and Python `str.split(sep)[0]` by
`takeUntilSub`.  Floating-point similarity scores are modelled as exact
rationals.  The two external similarity collaborators (the sentence-embedding
cosine-similarity oracle and `difflib.SequenceMatcher.ratio`) are passed in as
function parameters, following the external-interface contract of the system.
-/

namespace CompareTap

/-- Drop leading whitespace characters (one side of Python `strip`). -/
def ltrim (l : List Char) : List Char := l.dropWhile Char.isWhitespace

/-- Drop trailing whitespace characters (one side of Python `strip`). -/
def rtrim (l : List Char) : List Char := (l.reverse.dropWhile Char.isWhitespace).reverse

/-- Python `str.strip()` on the underlying character list. -/
def stripL (l : List Char) : List Char := rtrim (ltrim l)

/-- Python `str.strip()`. -/
def strip (s : String) : String := ⟨stripL s.data⟩

/-- Boolean list-prefix test (structural, decidable-equality based). -/
def isPre : List Char → List Char → Bool
  | [], _ => true
  | _ :: _, [] => false
  | a :: as, b :: bs => if a = b then isPre as bs else false

/-- Python substring containment `pat in l`. -/
def containsSub (pat : List Char) : List Char → Bool
  | [] => isPre pat []
  | c :: rest => isPre pat (c :: rest) || containsSub pat rest

/-- Python `l.split(sep)[0]`: everything before the first occurrence of
`sep` (the whole list when `sep` does not occur). -/
def takeUntilSub (sep : List Char) : List Char → List Char
  | [] => []
  | c :: rest => if isPre sep (c :: rest) then [] else c :: takeUntilSub sep rest

/-- `is_noise_change(line)`: a stripped-empty line is noise, a line whose
stripped form contains the literal `TEST:` is not noise, anything else is
noise. -/
def is_noise_change (line : String) : Bool :=
  let l := stripL line.data
  if l.isEmpty then true
  else if containsSub "TEST:".data l then false
  else true

/-- Auxiliary scanner for `str.splitlines`: split at every newline
character, accumulating the current line in reverse. -/
def splitlinesAux : List Char → List Char → List (List Char)
  | [], acc => [acc.reverse]
  | c :: rest, acc =>
    if c = '\n' then acc.reverse :: splitlinesAux rest [] else splitlinesAux rest (c :: acc)

/-- Python `str.splitlines()` (modelling the line boundary as `'\n'`, the
only boundary occurring in the TAP logs): a trailing newline does not
produce a trailing empty line, and the empty string yields no lines. -/
def splitlines (s : List Char) : List (List Char) :=
  if s = [] then []
  else if s.getLast? = some '\n' then (splitlinesAux s []).dropLast
  else splitlinesAux s []

/-- Drop leading whitespace (regex `\s*`). -/
def dropWs (l : List Char) : List Char := l.dropWhile Char.isWhitespace

/-- The shared tail `\s+\d+\s*-` of the regexes `ok\s+\d+\s*-` and
`not ok\s+\d+\s*-` used by `filter_ok_tests`, matched against the rest of
the line after the literal.  All character classes involved are disjoint,
so greedy matching needs no backtracking. -/
def matchesNumDash : List Char → Bool
  | [] => false
  | c :: rest =>
    c.isWhitespace &&
      (let r := dropWs rest
       !(r.takeWhile Char.isDigit).isEmpty &&
        match dropWs (r.dropWhile Char.isDigit) with
        | '-' :: _ => true
        | _ => false)

/-- `re.match(r'ok\s+\d+\s*-', line)` as a Boolean. -/
def is_ok_line : List Char → Bool
  | 'o' :: 'k' :: rest => matchesNumDash rest
  | _ => false

/-- `re.match(r'not ok\s+\d+\s*-', line)` as a Boolean. -/
def is_notok_line : List Char → Bool
  | 'n' :: 'o' :: 't' :: ' ' :: 'o' :: 'k' :: rest => matchesNumDash rest
  | _ => false

/-- `re.match(r'not ok\s+\d+\s*-\s*(\S+)', line)`: on success returns the
captured group, the maximal non-whitespace token after the dash.  The
character classes `\s`, `\d`, `-`, `\S` steps are mutually disjoint here, so
the greedy scan is exactly the regex-engine result. -/
def match_notok : List Char → Option (List Char)
  | 'n' :: 'o' :: 't' :: ' ' :: 'o' :: 'k' :: rest =>
    match rest with
    | [] => none
    | c :: rest2 =>
      if c.isWhitespace then
        let r := dropWs rest2
        if (r.takeWhile Char.isDigit).isEmpty then none
        else
          match dropWs (r.dropWhile Char.isDigit) with
          | '-' :: r3 =>
            let tok := (dropWs r3).takeWhile (fun c => !c.isWhitespace)
            if tok.isEmpty then none else some tok
          | _ => none
      else none
  | _ => none

/-- The literal suite-header marker. -/
def testResultsMarker : List Char := "- Test results:".data

/-- Whether `\s*-\s*Test results:` matches at the head of `l` (the part of
the old-style suite-header regex after the captured token). -/
def trTail (l : List Char) : Bool :=
  match dropWs l with
  | '-' :: r => isPre "Test results:".data (dropWs r)
  | _ => false

/-- Try group lengths `k, k-1, …, 1` for the greedy `(\S+)` of the
old-style header regex anchored at one position: `run` is the maximal
non-whitespace run there and `rest` what follows it. -/
def tryLens (run rest : List Char) : Nat → Option (List Char)
  | 0 => none
  | Nat.succ k =>
    if trTail (run.drop (k + 1) ++ rest) then some (run.take (k + 1))
    else tryLens run rest k

/-- Anchored attempt of `(\S+)\s*-\s*Test results:` at the head of `l`,
longest capture first (regex greediness with backtracking). -/
def mOldAt (l : List Char) : Option (List Char) :=
  let run := l.takeWhile (fun c => !c.isWhitespace)
  tryLens run (l.drop run.length) run.length

/-- `re.search(r'(\S+)\s*-\s*Test results:', line)`: leftmost anchored
match wins; returns the captured group. -/
def mOldSearch : List Char → Option (List Char)
  | [] => none
  | c :: rest =>
    match mOldAt (c :: rest) with
    | some g => some g
    | none => mOldSearch rest

/-- Python-`dict` assignment `m[k] = v` on an insertion-ordered association
list: an existing key keeps its position and gets the new value, a new key
is appended. -/
def dictInsert (m : List (String × List String)) (k : String) (v : List String) :
    List (String × List String) :=
  if m.any (fun p => p.1 = k) then m.map (fun p => if p.1 = k then (k, v) else p)
  else m ++ [(k, v)]

/-- State of the `parse_log_sections` scan: committed sections, the open
suite name, and its accumulated lines. -/
structure ParseState where
  sections : List (String × List String)
  currentSuite : Option String
  currentLines : List String

/-- Commit the open suite (if any) and open `suite`; the trigger line is
retained as first content line exactly when the `not ok` regex matched it. -/
def openSuite (st : ParseState) (suite : String) (line : String) (notokMatched : Bool) :
    ParseState :=
  let sections :=
    match st.currentSuite with
    | some cs => dictInsert st.sections cs st.currentLines
    | none => st.sections
  ⟨sections, some suite, if notokMatched then [line] else []⟩

/-- One iteration of the `parse_log_sections` loop body on a raw line. -/
def parseStep (st : ParseState) (raw : String) : ParseState :=
  let line := strip raw
  let mNotok := match_notok line.data
  if containsSub testResultsMarker line.data then
    let suite :=
      match mOldSearch line.data with
      | some g => strip ⟨g⟩
      | none => strip ⟨takeUntilSub testResultsMarker line.data⟩
    openSuite st suite line mNotok.isSome
  else
    match mNotok with
    | some g => openSuite st (strip ⟨g⟩) line true
    | none =>
      match st.currentSuite with
      | some _ => { st with currentLines := st.currentLines ++ [line] }
      | none => st

/-- `parse_log_sections(text)`: split into lines, scan them, and commit the
last open suite at end of input. -/
def parse_log_sections (text : String) : List (String × List String) :=
  let lines := (splitlines text.data).map (fun l => (⟨l⟩ : String))
  let st := lines.foldl parseStep ⟨[], none, []⟩
  match st.currentSuite with
  | some cs => dictInsert st.sections cs st.currentLines
  | none => st.sections

/-- The `filter_ok_tests` loop with its explicit `skip_mode` flag. -/
def filterOkAux : List String → Bool → List String
  | [], _ => []
  | l :: ls, skip =>
    if is_ok_line (stripL l.data) then filterOkAux ls true
    else if is_notok_line (stripL l.data) then l :: filterOkAux ls false
    else if skip then filterOkAux ls skip else l :: filterOkAux ls skip

/-- `filter_ok_tests(lines)`: drop `ok N -` lines and the run after them
until the next `not ok N -` line. -/
def filter_ok_tests (lines : List String) : List String := filterOkAux lines false

/-- Default `threshold_main` of `compare_sections` (the rational `0.88`). -/
def threshold_main : ℚ := mkRat 88 100

/-- Default `threshold_fallback` of `compare_sections` (the rational `0.85`). -/
def threshold_fallback : ℚ := mkRat 85 100

/-- Default `difflib_cutoff` of `compare_sections` (the rational `0.87`). -/
def difflib_cutoff : ℚ := mkRat 87 100

/-- The fuzzy-match cutoff of the suite aligner (the rational `0.6`). -/
def fuzzy_cutoff : ℚ := mkRat 6 10

/-- The list comprehension `[ln.strip() for ln in lines if ln.strip()]`. -/
def stripFilter (lines : List String) : List String :=
  (lines.map strip).filter (fun s => s ≠ "")

/-- Running maximum of `sims.max(dim=1)`: fold over the remaining baseline
lines, replacing the accumulator only on strictly greater score, which is
the first-occurrence argmax that `torch.max` returns. -/
def bestOf (sim : String → String → ℚ) (n : String) : List String → ℚ × String → ℚ × String
  | [], acc => acc
  | o :: os, acc => bestOf sim n os (if acc.1 < sim n o then (sim n o, o) else acc)

/-- The best (score, baseline line) pair for current line `n`; `0` for an
empty baseline (unreachable behind the emptiness guard). -/
def bestPairOf (sim : String → String → ℚ) (olds : List String) (n : String) : ℚ × String :=
  match olds with
  | [] => (0, "")
  | o :: os => bestOf sim n os (sim n o, o)

/-- Best similarity score of current line `n` against the baseline lines. -/
def bestScore (sim : String → String → ℚ) (olds : List String) (n : String) : ℚ :=
  (bestPairOf sim olds n).1

/-- Two-decimal rendering of the difflib ratio for the `(difflib=…)`
annotation (Python `f"{ratio:.2f}"`, rounding modelled half-up on the exact
rational). -/
def fmt2 (q : ℚ) : String :=
  let n : ℤ := ⌊q * 100 + 1 / 2⌋
  let ip := n / 100
  let fp := (n % 100).toNat
  toString ip ++ "." ++ (if fp < 10 then "0" else "") ++ toString fp

/-- The per-current-line decision body of the `compare_sections` loop:
changed when the best score is below `tm`; else, when the best score exceeds
`tf`, changed with annotation when the textual ratio is below `dc`; else
matched and dropped. -/
def decideLine (sim ratio : String → String → ℚ) (tm tf dc : ℚ) (olds : List String)
    (n : String) : List String :=
  match olds with
  | [] => []
  | o :: os =>
    let best := bestOf sim n os (sim n o, o)
    if best.1 < tm then [n]
    else if tf < best.1 then
      if ratio n best.2 < dc then [n ++ " (difflib=" ++ fmt2 (ratio n best.2) ++ ")"]
      else []
    else []

/-- The `compare_sections` main loop: concatenate the per-line decisions in
current-line order. -/
def compareChanges (sim ratio : String → String → ℚ) (tm tf dc : ℚ) (olds : List String) :
    List String → List String
  | [] => []
  | n :: ns =>
    decideLine sim ratio tm tf dc olds n ++ compareChanges sim ratio tm tf dc olds ns

/-- `compare_sections(old_lines, new_lines, …)` with the embedding
similarity `sim` and the textual similarity `ratio` passed as the external
oracles they are in the source. -/
def compare_sections (sim ratio : String → String → ℚ) (old_lines new_lines : List String)
    (tm tf dc : ℚ) : List String :=
  if stripFilter old_lines = [] ∨ stripFilter new_lines = [] then stripFilter new_lines
  else compareChanges sim ratio tm tf dc (stripFilter old_lines) (stripFilter new_lines)

/-- Outcome of aligning one current suite name against the baseline. -/
inductive MatchResult where
  | Exact : String → MatchResult
  | Fuzzy : String → MatchResult
  | NoMatch : MatchResult
deriving DecidableEq

/-- The running maximum of `heapq.nlargest(1, [(score, x), …])`: lexicographic
maximum over (score, candidate) pairs. -/
def bestScored (ratio : String → String → ℚ) (word : String) :
    List String → Option (ℚ × String)
  | [] => none
  | x :: xs =>
    let r := ratio word x
    match bestScored ratio word xs with
    | none => some (r, x)
    | some (s, y) => if s < r ∨ (s = r ∧ y < x) then some (r, x) else some (s, y)

/-- `difflib.get_close_matches(word, possibilities, n=1, cutoff)`.  The
`real_quick_ratio`/`quick_ratio` pre-filters of difflib are upper bounds on
`ratio`, so the filter is exactly `cutoff ≤ ratio`. -/
def get_close_matches1 (ratio : String → String → ℚ) (word : String)
    (possibilities : List String) (cutoff : ℚ) : Option String :=
  (bestScored ratio word (possibilities.filter (fun x => cutoff ≤ ratio word x))).map
    Prod.snd

/-- The suite-alignment step of the main workflow: exact key membership wins,
otherwise the single best fuzzy candidate at cutoff `0.6`. -/
def align (ratio : String → String → ℚ) (suiteName : String) (oldKeys : List String) :
    MatchResult :=
  if suiteName ∈ oldKeys then .Exact suiteName
  else
    match get_close_matches1 ratio suiteName oldKeys fuzzy_cutoff with
    | some m => .Fuzzy m
    | none => .NoMatch

/-- The Noise partition `[c for c in changes if is_noise_change(c)]`. -/
def noise_changes (changes : List String) : List String :=
  changes.filter (fun c => is_noise_change c)

/-- The Real partition `[c for c in changes if not is_noise_change(c)]`. -/
def real_changes (changes : List String) : List String :=
  changes.filter (fun c => !is_noise_change c)

/-- The per-suite report block of the main workflow: the `Real semantic
changes:` section listing the Real lines when there are any, otherwise the
`No meaningful test differences.` message. -/
def suite_report (changes : List String) : List String :=
  let real := real_changes changes
  if real ≠ [] then "Real semantic changes:" :: real.map (fun c => "   - " ++ c)
  else ["No meaningful test differences."]

/-- Constant fuzzy-similarity oracle used by the C4 witness. -/
def ratioConst : String → String → ℚ := fun _ _ => mkRat 7 10

/-- Constant embedding oracle placing every score in the dead zone. -/
def simDead : String → String → ℚ := fun _ _ => mkRat 86 100

/-- Constant textual-similarity oracle rating everything identical. -/
def ratioOne : String → String → ℚ := fun _ _ => 1

/-- Equality-indicator oracle used by the C7 witness. -/
def simEq : String → String → ℚ := fun a b => if a = b then 1 else 0

/-- The fixed seven characters `"not ok "` opening a failure-record line. -/
def notokPre : List Char := ['n', 'o', 't', ' ', 'o', 'k', ' ']

/-- The three characters `" - "` separating the number from the name in a
failure-record line. -/
def dashSep : List Char := [' ', '-', ' ']

end CompareTap

namespace CompareTap

/-- Claim C8: `is_noise_change` labels blank/whitespace-only lines as Noise,
lines containing the literal `TEST:` marker as Real, and every other line as
Noise; equivalently, a line is Real (`is_noise_change = false`) iff its
trimmed form is non-empty and contains `TEST:`. -/
theorem is_noise_change_real_iff (line : String) :
    is_noise_change line = false ↔
      (stripL line.data ≠ [] ∧ containsSub "TEST:".data (stripL line.data) = true) := by
  unfold is_noise_change
  by_cases h : (stripL line.data).isEmpty
  · simp [h, List.isEmpty_iff.mp h]
  · have hne : stripL line.data ≠ [] := by simpa [List.isEmpty_iff] using h
    by_cases h2 : containsSub "TEST:".data (stripL line.data) = true
    · simp [h, h2, hne]
    · simp [h, h2, hne]

/-- Claim C10: on an input whose second line carries the `- Test results:`
marker with nothing before the delimiter, the strict header regex fails, the
fallback extraction yields the empty string, the previously open suite `A` is
committed, and a suite keyed by the empty string is created. -/
theorem parse_empty_suite_key :
    parse_log_sections "not ok 1 - A\n- Test results: x\nfoo" =
      [("A", ["not ok 1 - A"]), ("", ["foo"])] := by decide

/-- Claim C2 counterexample: for a changes list holding one noise-only line,
the Noise partition is non-empty and the report still emits the
`No meaningful test differences.` message and contains no Noise line. -/
theorem suite_report_noise_cex :
    noise_changes ["hello world"] ≠ [] ∧
      suite_report ["hello world"] = ["No meaningful test differences."] := by
  exact ⟨by decide, by decide⟩

/-- Claim C2 amended: the per-suite report block lists exactly the Real
partition (never the Noise partition), and the `No meaningful test
differences.` message is emitted iff the Real partition is empty, regardless
of the Noise partition. -/
theorem suite_report_spec (changes : List String) :
    (suite_report changes = ["No meaningful test differences."] ↔
        real_changes changes = []) ∧
      (real_changes changes ≠ [] →
        suite_report changes =
          "Real semantic changes:" :: (real_changes changes).map (fun c => "   - " ++ c)) := by
  have hrw : suite_report changes =
      if real_changes changes ≠ [] then
        "Real semantic changes:" :: (real_changes changes).map (fun c => "   - " ++ c)
      else ["No meaningful test differences."] := rfl
  rw [hrw]
  by_cases h : real_changes changes = []
  · simp [h]
  · rw [if_pos h]
    refine ⟨⟨fun hc => ?_, fun hc => (h hc).elim⟩, fun _ => rfl⟩
    injection hc with h1 h2
    exact absurd h1 (by decide)

/-- Witness for the amended C2 theorem at a concrete changes list with one
Real line. -/
theorem suite_report_spec_witness :
    suite_report ["TEST: x"] =
      "Real semantic changes:" :: (real_changes ["TEST: x"]).map (fun c => "   - " ++ c) :=
  (suite_report_spec ["TEST: x"]).2 (by decide)

theorem stripFilter_eq_self (lines : List String)
    (h : ∀ l ∈ lines, strip l = l ∧ l ≠ "") : stripFilter lines = lines := by
  induction lines with
  | nil => rfl
  | cons a as ih =>
    have ha := h a (by simp)
    have hr := ih (fun l hl => h l (by simp [hl]))
    unfold stripFilter at hr ⊢
    rw [List.map_cons, List.filter_cons, ha.1, hr,
      if_pos (show decide (a ≠ "") = true from decide_eq_true ha.2)]

/-- Claim C5: with an empty baseline, `compare_sections` returns the current
lines unchanged and in order, whenever they are already trimmed with empty
lines removed. -/
theorem compare_sections_empty_baseline (sim ratio : String → String → ℚ)
    (new_lines : List String) (h : ∀ l ∈ new_lines, strip l = l ∧ l ≠ "") :
    compare_sections sim ratio [] new_lines threshold_main threshold_fallback difflib_cutoff
      = new_lines := by
  unfold compare_sections
  rw [stripFilter_eq_self new_lines h]
  simp [stripFilter]

/-- Witness for C5 at a concrete trimmed current list. -/
theorem compare_sections_empty_baseline_witness :
    compare_sections (fun _ _ => 0) (fun _ _ => 0) [] ["not ok 1 - a"] threshold_main
      threshold_fallback difflib_cutoff = ["not ok 1 - a"] :=
  compare_sections_empty_baseline _ _ _ (by decide)

theorem filterOkAux_cons_ok (a : String) (as : List String) (skip : Bool)
    (h : is_ok_line (stripL a.data) = true) :
    filterOkAux (a :: as) skip = filterOkAux as true := by
  conv_lhs => rw [filterOkAux]
  rw [if_pos h]

theorem filterOkAux_cons_notok (a : String) (as : List String) (skip : Bool)
    (h : is_ok_line (stripL a.data) = false) (h2 : is_notok_line (stripL a.data) = true) :
    filterOkAux (a :: as) skip = a :: filterOkAux as false := by
  conv_lhs => rw [filterOkAux]
  rw [if_neg (by simp [h]), if_pos h2]

theorem filterOkAux_cons_skip (a : String) (as : List String)
    (h : is_ok_line (stripL a.data) = false) (h2 : is_notok_line (stripL a.data) = false) :
    filterOkAux (a :: as) true = filterOkAux as true := by
  conv_lhs => rw [filterOkAux]
  rw [if_neg (by simp [h]), if_neg (by simp [h2]), if_pos rfl]

theorem filterOkAux_cons_keep (a : String) (as : List String)
    (h : is_ok_line (stripL a.data) = false) (h2 : is_notok_line (stripL a.data) = false) :
    filterOkAux (a :: as) false = a :: filterOkAux as false := by
  conv_lhs => rw [filterOkAux]
  rw [if_neg (by simp [h]), if_neg (by simp [h2]), if_neg (by simp)]

theorem filterOkAux_no_ok (lines : List String) :
    ∀ skip, ∀ l ∈ filterOkAux lines skip, is_ok_line (stripL l.data) = false := by
  induction lines with
  | nil => intro skip l hl; simp [filterOkAux] at hl
  | cons a as ih =>
    intro skip l hl
    cases hok : is_ok_line (stripL a.data) with
    | true =>
      rw [filterOkAux_cons_ok a as skip hok] at hl
      exact ih true l hl
    | false =>
      cases hnok : is_notok_line (stripL a.data) with
      | true =>
        rw [filterOkAux_cons_notok a as skip hok hnok] at hl
        rcases List.mem_cons.mp hl with rfl | hl
        · exact hok
        · exact ih false l hl
      | false =>
        cases skip with
        | true =>
          rw [filterOkAux_cons_skip a as hok hnok] at hl
          exact ih true l hl
        | false =>
          rw [filterOkAux_cons_keep a as hok hnok] at hl
          rcases List.mem_cons.mp hl with rfl | hl
          · exact hok
          · exact ih false l hl

theorem filterOkAux_id (lines : List String)
    (h : ∀ l ∈ lines, is_ok_line (stripL l.data) = false) :
    filterOkAux lines false = lines := by
  induction lines with
  | nil => rfl
  | cons a as ih =>
    have ha := h a (by simp)
    have hr := ih (fun l hl => h l (by simp [hl]))
    cases hnok : is_notok_line (stripL a.data) with
    | true => rw [filterOkAux_cons_notok a as false ha hnok, hr]
    | false => rw [filterOkAux_cons_keep a as ha hnok, hr]

/-- Claim C6: `filter_ok_tests` is idempotent: applying it twice yields the
same result as applying it once. -/
theorem filter_ok_tests_idempotent (lines : List String) :
    filter_ok_tests (filter_ok_tests lines) = filter_ok_tests lines :=
  filterOkAux_id _ (filterOkAux_no_ok lines false)

theorem filterOkAux_sublist (lines : List String) :
    ∀ skip, (filterOkAux lines skip).Sublist lines := by
  induction lines with
  | nil => intro skip; simp [filterOkAux]
  | cons a as ih =>
    intro skip
    cases hok : is_ok_line (stripL a.data) with
    | true =>
      rw [filterOkAux_cons_ok a as skip hok]
      exact (ih true).cons a
    | false =>
      cases hnok : is_notok_line (stripL a.data) with
      | true =>
        rw [filterOkAux_cons_notok a as skip hok hnok]
        exact (ih false).cons₂ a
      | false =>
        cases skip with
        | true =>
          rw [filterOkAux_cons_skip a as hok hnok]
          exact (ih true).cons a
        | false =>
          rw [filterOkAux_cons_keep a as hok hnok]
          exact (ih false).cons₂ a

/-- Claim C9: the output of `filter_ok_tests` is a subsequence of its input
(kept lines occur in input order), and no output line matches the passing
pattern `ok <N> -` after trimming. -/
theorem filter_ok_tests_sub_no_ok (lines : List String) :
    (filter_ok_tests lines).Sublist lines ∧
      ∀ l ∈ filter_ok_tests lines, is_ok_line (stripL l.data) = false :=
  ⟨filterOkAux_sublist lines false, filterOkAux_no_ok lines false⟩

/-- Witness for C9 at a concrete line list. -/
theorem filter_ok_tests_sub_no_ok_witness :
    (filter_ok_tests ["ok 1 - a", "x", "not ok 2 - b"]).Sublist
        ["ok 1 - a", "x", "not ok 2 - b"] ∧
      is_ok_line (stripL ("not ok 2 - b" : String).data) = false :=
  ⟨(filter_ok_tests_sub_no_ok _).1,
   (filter_ok_tests_sub_no_ok ["ok 1 - a", "x", "not ok 2 - b"]).2 "not ok 2 - b" (by decide)⟩

theorem bestScored_eq_none_iff (ratio : String → String → ℚ) (word : String)
    (xs : List String) : bestScored ratio word xs = none ↔ xs = [] := by
  cases xs with
  | nil => simp [bestScored]
  | cons a as =>
    rw [bestScored]
    constructor
    · intro h
      exfalso
      revert h
      cases bestScored ratio word as with
      | none => intro h; exact Option.noConfusion h
      | some p =>
        obtain ⟨s, y⟩ := p
        intro h
        dsimp at h
        split at h <;> exact Option.noConfusion h
    · intro h; exact List.noConfusion h

theorem bestScored_spec (ratio : String → String → ℚ) (word : String) :
    ∀ (xs : List String) (s : ℚ) (y : String), bestScored ratio word xs = some (s, y) →
      y ∈ xs ∧ s = ratio word y ∧ ∀ x ∈ xs, ratio word x ≤ s := by
  intro xs
  induction xs with
  | nil => intro s y h; simp [bestScored] at h
  | cons a as ih =>
    intro s y h
    rw [bestScored] at h
    revert h
    cases hr : bestScored ratio word as with
    | none =>
      intro h
      dsimp at h
      simp only [Option.some.injEq, Prod.mk.injEq] at h
      obtain ⟨rfl, rfl⟩ := h
      have : as = [] := (bestScored_eq_none_iff ratio word as).mp hr
      subst this
      simp
    | some p =>
      obtain ⟨s', y'⟩ := p
      intro h
      dsimp at h
      obtain ⟨hy', hs', hall⟩ := ih s' y' hr
      split at h
      case isTrue hc =>
        simp only [Option.some.injEq, Prod.mk.injEq] at h
        obtain ⟨rfl, rfl⟩ := h
        refine ⟨by simp, rfl, ?_⟩
        intro x hx
        rcases List.mem_cons.mp hx with rfl | hx
        · exact le_refl _
        · have hxs' := hall x hx
          rcases hc with hc | hc
          · exact le_trans hxs' (le_of_lt hc)
          · exact le_trans hxs' (le_of_eq hc.1)
      case isFalse hc =>
        simp only [Option.some.injEq, Prod.mk.injEq] at h
        obtain ⟨rfl, rfl⟩ := h
        push_neg at hc
        refine ⟨by simp [hy'], hs', ?_⟩
        intro x hx
        rcases List.mem_cons.mp hx with rfl | hx
        · exact hc.1
        · exact hall x hx

/-- Claim C4: `align` returns `Exact` whenever the name is a key of the
baseline index, regardless of any fuzzy-candidate scores; otherwise the
single best approximate candidate is accepted as `Fuzzy` iff its similarity
ratio reaches the cutoff `0.6`, and `NoMatch` is returned iff no candidate
does. -/
theorem align_spec (ratio : String → String → ℚ) (name : String) (keys : List String) :
    (name ∈ keys → align ratio name keys = .Exact name) ∧
      (name ∉ keys →
        ((align ratio name keys = .NoMatch ↔ ∀ k ∈ keys, ratio name k < fuzzy_cutoff) ∧
          ∀ m, align ratio name keys = .Fuzzy m →
            m ∈ keys ∧ fuzzy_cutoff ≤ ratio name m ∧ ∀ k ∈ keys, ratio name k ≤ ratio name m)) := by
  constructor
  · intro h
    unfold align
    simp [h]
  · intro h
    unfold align
    rw [if_neg h]
    unfold get_close_matches1
    constructor
    · cases hb : bestScored ratio name (keys.filter fun x => fuzzy_cutoff ≤ ratio name x) with
      | none =>
        have hnil := (bestScored_eq_none_iff ratio name _).mp hb
        simp only [hb, Option.map_none']
        constructor
        · intro _ k hk
          by_contra hlt
          push_neg at hlt
          have : k ∈ keys.filter fun x => fuzzy_cutoff ≤ ratio name x :=
            List.mem_filter.mpr ⟨hk, by simpa using hlt⟩
          rw [hnil] at this
          simp at this
        · intro _; trivial
      | some p =>
        obtain ⟨s, y⟩ := p
        simp only [hb, Option.map_some']
        constructor
        · intro hcon; exact absurd hcon (by simp)
        · intro hall
          obtain ⟨hy, _, _⟩ := bestScored_spec ratio name _ s y hb
          have := (List.mem_filter.mp hy).2
          have hlt := hall y (List.mem_filter.mp hy).1
          simp only [decide_eq_true_eq] at this
          exact absurd this (not_le.mpr hlt)
    · intro m hm
      cases hb : bestScored ratio name (keys.filter fun x => fuzzy_cutoff ≤ ratio name x) with
      | none => rw [hb] at hm; simp at hm
      | some p =>
        obtain ⟨s, y⟩ := p
        rw [hb] at hm
        simp only [Option.map_some', MatchResult.Fuzzy.injEq] at hm
        subst hm
        obtain ⟨hy, hs, hall⟩ := bestScored_spec ratio name _ s y hb
        have hmk := List.mem_filter.mp hy
        have hcut : fuzzy_cutoff ≤ ratio name y := by simpa using hmk.2
        refine ⟨hmk.1, hcut, ?_⟩
        intro k hk
        by_cases hck : fuzzy_cutoff ≤ ratio name k
        · have : k ∈ keys.filter fun x => fuzzy_cutoff ≤ ratio name x :=
            List.mem_filter.mpr ⟨hk, by simpa using hck⟩
          have := hall k this
          rw [hs] at this
          exact this
        · exact le_trans (le_of_lt (not_le.mp hck)) hcut

/-- Witness for C4: an exact key wins outright, and a fuzzy acceptance comes
with the cutoff and maximality facts. -/
theorem align_spec_witness :
    align ratioConst "A" ["A", "B"] = .Exact "A" ∧
      (fuzzy_cutoff ≤ ratioConst "C" "A" ∧ ∀ k ∈ ["A"], ratioConst "C" k ≤ ratioConst "C" "A") :=
  ⟨(align_spec ratioConst "A" ["A", "B"]).1 (by decide),
   (((align_spec ratioConst "C" ["A"]).2 (by decide)).2 "A" (by decide)).2⟩

/-- Claim C1 counterexample: with best score 0.86, strictly between
`threshold_fallback = 0.85` and `threshold_main = 0.88` and never reaching
the textual check, the current line IS reported as changed, where the claim
says it is matched and dropped. -/
theorem deadzone_cex :
    threshold_fallback < simDead "cur" "base" ∧
      simDead "cur" "base" < threshold_main ∧
      compare_sections simDead ratioOne ["base"] ["cur"] threshold_main threshold_fallback
        difflib_cutoff = ["cur"] :=
  ⟨by decide, by decide, by decide⟩

theorem decideLine_cons (sim ratio : String → String → ℚ) (tm tf dc : ℚ) (o : String)
    (os : List String) (n : String) :
    decideLine sim ratio tm tf dc (o :: os) n =
      if (bestOf sim n os (sim n o, o)).1 < tm then [n]
      else if tf < (bestOf sim n os (sim n o, o)).1 then
        if ratio n (bestOf sim n os (sim n o, o)).2 < dc then
          [n ++ " (difflib=" ++ fmt2 (ratio n (bestOf sim n os (sim n o, o)).2) ++ ")"]
        else []
      else [] := rfl

theorem mem_compareChanges (sim ratio : String → String → ℚ) (tm tf dc : ℚ)
    (olds : List String) (n x : String) :
    ∀ news : List String, n ∈ news → x ∈ decideLine sim ratio tm tf dc olds n →
      x ∈ compareChanges sim ratio tm tf dc olds news := by
  intro news
  induction news with
  | nil => intro h; simp at h
  | cons a as ih =>
    intro hn hx
    unfold compareChanges
    rcases List.mem_cons.mp hn with rfl | hn
    · exact List.mem_append_left _ hx
    · exact List.mem_append_right _ (ih hn hx)

/-- Claim C1 amended: every current line whose best baseline similarity score
lies strictly inside the dead zone between `threshold_fallback` and
`threshold_main` is reported as changed (the `bestScore < threshold_main`
branch fires before the dead-zone case can drop it). -/
theorem deadzone_reported (sim ratio : String → String → ℚ)
    (old_lines new_lines : List String) (n : String)
    (hold : stripFilter old_lines ≠ [])
    (hn : n ∈ stripFilter new_lines)
    (_hlo : threshold_fallback < bestScore sim (stripFilter old_lines) n)
    (hhi : bestScore sim (stripFilter old_lines) n < threshold_main) :
    n ∈ compare_sections sim ratio old_lines new_lines threshold_main threshold_fallback
      difflib_cutoff := by
  unfold compare_sections
  have hnews : stripFilter new_lines ≠ [] := List.ne_nil_of_mem hn
  rw [if_neg (by simp [hold, hnews])]
  refine mem_compareChanges _ _ _ _ _ _ _ n _ hn ?_
  obtain ⟨o, os, ho⟩ := List.exists_cons_of_ne_nil hold
  rw [ho]
  rw [ho] at hhi
  have hhi2 : (bestOf sim n os (sim n o, o)).1 < threshold_main := hhi
  rw [decideLine_cons, if_pos hhi2]
  exact List.mem_singleton.mpr rfl

/-- Witness for the amended C1 theorem at a concrete one-line comparison. -/
theorem deadzone_reported_witness :
    "cur" ∈ compare_sections simDead ratioOne ["base"] ["cur"] threshold_main
      threshold_fallback difflib_cutoff :=
  deadzone_reported simDead ratioOne ["base"] ["cur"] "cur" (by decide) (by decide)
    (by decide) (by decide)

theorem bestOf_mem_eq (sim : String → String → ℚ) (n : String) :
    ∀ (os : List String) (acc : ℚ × String), acc.1 = sim n acc.2 →
      (bestOf sim n os acc).1 = sim n (bestOf sim n os acc).2 ∧
        ((bestOf sim n os acc).2 = acc.2 ∨ (bestOf sim n os acc).2 ∈ os) := by
  intro os
  induction os with
  | nil => intro acc hacc; exact ⟨hacc, Or.inl rfl⟩
  | cons o os' ih =>
    intro acc hacc
    unfold bestOf
    by_cases h : acc.1 < sim n o
    · rw [if_pos h]
      obtain ⟨h1, h2⟩ := ih (sim n o, o) rfl
      refine ⟨h1, ?_⟩
      rcases h2 with h2 | h2
      · exact Or.inr (by simp [h2])
      · exact Or.inr (List.mem_cons_of_mem _ h2)
    · rw [if_neg h]
      obtain ⟨h1, h2⟩ := ih acc hacc
      refine ⟨h1, ?_⟩
      rcases h2 with h2 | h2
      · exact Or.inl h2
      · exact Or.inr (List.mem_cons_of_mem _ h2)

theorem bestOf_le (sim : String → String → ℚ) (n : String) :
    ∀ (os : List String) (acc : ℚ × String),
      acc.1 ≤ (bestOf sim n os acc).1 ∧ ∀ o ∈ os, sim n o ≤ (bestOf sim n os acc).1 := by
  intro os
  induction os with
  | nil => intro acc; exact ⟨le_refl _, by simp⟩
  | cons o os' ih =>
    intro acc
    unfold bestOf
    by_cases h : acc.1 < sim n o
    · rw [if_pos h]
      obtain ⟨h1, h2⟩ := ih (sim n o, o)
      refine ⟨le_trans (le_of_lt h) h1, ?_⟩
      intro o' ho'
      rcases List.mem_cons.mp ho' with rfl | ho'
      · exact h1
      · exact h2 o' ho'
    · rw [if_neg h]
      obtain ⟨h1, h2⟩ := ih acc
      refine ⟨h1, ?_⟩
      intro o' ho'
      rcases List.mem_cons.mp ho' with rfl | ho'
      · exact le_trans (not_lt.mp h) h1
      · exact h2 o' ho'

theorem compareChanges_eq_nil (sim ratio : String → String → ℚ) (tm tf dc : ℚ)
    (olds : List String) :
    ∀ news : List String, (∀ n ∈ news, decideLine sim ratio tm tf dc olds n = []) →
      compareChanges sim ratio tm tf dc olds news = [] := by
  intro news
  induction news with
  | nil => intro _; rfl
  | cons a as ih =>
    intro h
    unfold compareChanges
    rw [h a (by simp), ih (fun n hn => h n (by simp [hn]))]
    rfl

/-- Claim C7: on identical, non-empty, trimmed current and baseline inputs,
`compare_sections` returns an empty change list, for every embedding oracle
that scores a line against itself as `1`, never exceeds `1`, and only awards
`1` to equal lines, and every textual ratio rating a line against itself as
`1` — all properties of the cosine-similarity and difflib oracles of the
source. -/
theorem compare_sections_identical (sim ratio : String → String → ℚ) (X : List String)
    (hne : X ≠ [])
    (htrim : ∀ l ∈ X, strip l = l ∧ l ≠ "")
    (hrefl : ∀ l ∈ X, sim l l = 1)
    (hbound : ∀ a ∈ X, ∀ b ∈ X, sim a b ≤ 1)
    (hdef : ∀ a ∈ X, ∀ b ∈ X, sim a b = 1 → a = b)
    (hratio : ∀ l ∈ X, ratio l l = 1) :
    compare_sections sim ratio X X threshold_main threshold_fallback difflib_cutoff = [] := by
  unfold compare_sections
  rw [stripFilter_eq_self X htrim]
  rw [if_neg (by simp [hne])]
  apply compareChanges_eq_nil
  intro n hn
  obtain ⟨x, xs, rfl⟩ := List.exists_cons_of_ne_nil hne
  obtain ⟨hinv1, hinv2⟩ := bestOf_mem_eq sim n xs (sim n x, x) rfl
  have hmem : (bestOf sim n xs (sim n x, x)).2 ∈ x :: xs := by
    rcases hinv2 with h | h
    · rw [h]; exact List.mem_cons_self x xs
    · exact List.mem_cons_of_mem _ h
  have hub : (bestOf sim n xs (sim n x, x)).1 ≤ 1 := by
    rw [hinv1]
    exact hbound n hn _ hmem
  have hlb : (1 : ℚ) ≤ (bestOf sim n xs (sim n x, x)).1 := by
    rcases List.mem_cons.mp hn with rfl | hn2
    · have h2 := (bestOf_le sim n xs (sim n n, n)).1
      calc (1 : ℚ) = sim n n := (hrefl n hn).symm
        _ ≤ _ := h2
    · have h2 := (bestOf_le sim n xs (sim n x, x)).2 n hn2
      calc (1 : ℚ) = sim n n := (hrefl n hn).symm
        _ ≤ _ := h2
  have h1 : (bestOf sim n xs (sim n x, x)).1 = 1 := le_antisymm hub hlb
  have hbn : (bestOf sim n xs (sim n x, x)).2 = n := by
    have hsim : sim n (bestOf sim n xs (sim n x, x)).2 = 1 := by rw [← hinv1, h1]
    exact (hdef n hn _ hmem hsim).symm
  rw [decideLine_cons, h1, hbn, hratio n hn]
  rw [if_neg (by decide), if_pos (by decide), if_neg (by decide)]

/-- Witness for C7 at a concrete one-line suite. -/
theorem compare_sections_identical_witness :
    compare_sections simEq simEq ["TEST: build passes"] ["TEST: build passes"]
      threshold_main threshold_fallback difflib_cutoff = [] :=
  compare_sections_identical simEq simEq ["TEST: build passes"] (by decide) (by decide)
    (by decide) (by decide) (by decide) (by decide)

theorem ws_char_cases (c : Char) (h : c.isWhitespace = true) :
    c = ' ' ∨ c = '\t' ∨ c = '\x0d' ∨ c = '\n' := by
  simp [Char.isWhitespace] at h
  tauto

theorem digit_not_ws (c : Char) (h : c.isDigit = true) : c.isWhitespace = false := by
  cases hw : c.isWhitespace
  · rfl
  · rcases ws_char_cases c hw with rfl | rfl | rfl | rfl <;> exact absurd h (by decide)

theorem dropWhile_all_false (p : Char → Bool) (l : List Char) (h : ∀ c ∈ l, p c = false) :
    l.dropWhile p = l := by
  cases l with
  | nil => rfl
  | cons a as => rw [List.dropWhile_cons, if_neg (by simp [h a (by simp)])]

theorem dropWhile_cons_neg (p : Char → Bool) (a : Char) (l : List Char) (h : p a = false) :
    (a :: l).dropWhile p = a :: l := by
  rw [List.dropWhile_cons, if_neg (by simp [h])]

theorem ltrim_cons (a : Char) (l : List Char) (h : a.isWhitespace = false) :
    ltrim (a :: l) = a :: l := dropWhile_cons_neg _ a l h

theorem rtrim_concat (l : List Char) (a : Char) (h : a.isWhitespace = false) :
    rtrim (l ++ [a]) = l ++ [a] := by
  unfold rtrim
  rw [List.reverse_append]
  simp only [List.reverse_cons, List.reverse_nil, List.nil_append, List.singleton_append]
  rw [dropWhile_cons_neg _ a _ h, List.reverse_cons, List.reverse_reverse]

theorem stripL_eq_self (a : Char) (m : List Char) (b : Char)
    (ha : a.isWhitespace = false) (hb : b.isWhitespace = false) :
    stripL (a :: (m ++ [b])) = a :: (m ++ [b]) := by
  unfold stripL
  rw [ltrim_cons _ _ ha]
  rw [show a :: (m ++ [b]) = (a :: m) ++ [b] from rfl]
  exact rtrim_concat _ _ hb

theorem stripL_eq_self_of_no_ws (l : List Char) (h : ∀ c ∈ l, c.isWhitespace = false) :
    stripL l = l := by
  unfold stripL ltrim rtrim
  rw [dropWhile_all_false _ _ h]
  rw [dropWhile_all_false _ _ (fun c hc => h c (List.mem_reverse.mp hc))]
  exact List.reverse_reverse l

theorem takeWhile_all (p : Char → Bool) : ∀ l : List Char, (∀ c ∈ l, p c = true) →
    l.takeWhile p = l := by
  intro l
  induction l with
  | nil => intro _; rfl
  | cons a as ih =>
    intro h
    rw [List.takeWhile_cons, if_pos (h a (by simp)), ih (fun c hc => h c (by simp [hc]))]

theorem takeWhile_all_append (p : Char → Bool) (x : Char) (hx : p x = false) :
    ∀ (l1 l2 : List Char), (∀ c ∈ l1, p c = true) →
      (l1 ++ x :: l2).takeWhile p = l1 ∧ (l1 ++ x :: l2).dropWhile p = x :: l2 := by
  intro l1
  induction l1 with
  | nil =>
    intro l2 _
    constructor
    · rw [List.nil_append, List.takeWhile_cons, if_neg (by simp [hx])]
    · rw [List.nil_append, List.dropWhile_cons, if_neg (by simp [hx])]
  | cons a as ih =>
    intro l2 h
    have ha := h a (by simp)
    obtain ⟨h1, h2⟩ := ih l2 (fun c hc => h c (by simp [hc]))
    constructor
    · rw [List.cons_append, List.takeWhile_cons, if_pos ha, h1]
    · rw [List.cons_append, List.dropWhile_cons, if_pos ha, h2]

theorem mem_of_getLastQ : ∀ (l : List Char) (c : Char), l.getLast? = some c → c ∈ l := by
  intro l
  induction l with
  | nil => intro c h; exact Option.noConfusion h
  | cons a as ih =>
    intro c h
    cases as with
    | nil =>
      simp [List.getLast?] at h
      simp [h]
    | cons b bs =>
      rw [List.getLast?_cons_cons] at h
      exact List.mem_cons_of_mem _ (ih c h)

theorem splitlinesAux_no_newline : ∀ (l acc : List Char), '\n' ∉ l →
    splitlinesAux l acc = [acc.reverse ++ l] := by
  intro l
  induction l with
  | nil => intro acc _; simp [splitlinesAux]
  | cons c rest ih =>
    intro acc h
    have hc : ¬(c = '\n') := fun hc => h (by simp [hc])
    rw [splitlinesAux, if_neg hc, ih (c :: acc) (fun hm => h (by simp [hm]))]
    simp

theorem splitlines_no_newline (l : List Char) (hne : l ≠ []) (h : '\n' ∉ l) :
    splitlines l = [l] := by
  unfold splitlines
  rw [if_neg hne]
  have hlast : ¬(l.getLast? = some '\n') := fun hc => h (mem_of_getLastQ l '\n' hc)
  rw [if_neg hlast]
  simpa using splitlinesAux_no_newline l [] h

theorem isPre_exists (p : List Char) : ∀ l, isPre p l = true ↔ ∃ t, l = p ++ t := by
  induction p with
  | nil => intro l; simp [isPre]
  | cons a as ih =>
    intro l
    cases l with
    | nil =>
      rw [isPre]
      constructor
      · intro h; exact Bool.noConfusion h
      · rintro ⟨t, ht⟩; exact List.noConfusion ht
    | cons b bs =>
      rw [isPre]
      by_cases hab : a = b
      · subst hab
        rw [if_pos rfl, ih bs]
        constructor
        · rintro ⟨t, rfl⟩; exact ⟨t, rfl⟩
        · rintro ⟨t, ht⟩
          injection ht with h1 h2
          exact ⟨t, h2⟩
      · rw [if_neg hab]
        constructor
        · intro h; exact Bool.noConfusion h
        · rintro ⟨t, ht⟩
          injection ht with h1 h2
          exact absurd h1.symm hab

theorem containsSub_exists (pat : List Char) : ∀ l,
    containsSub pat l = true ↔ ∃ s t, l = s ++ pat ++ t := by
  intro l
  induction l with
  | nil =>
    rw [containsSub, isPre_exists]
    constructor
    · rintro ⟨t, ht⟩; exact ⟨[], t, by simpa using ht⟩
    · rintro ⟨s, t, hst⟩
      have h0 : s ++ (pat ++ t) = [] := by rw [← List.append_assoc]; exact hst.symm
      obtain ⟨hs, hpt⟩ := List.append_eq_nil.mp h0
      obtain ⟨hp, ht⟩ := List.append_eq_nil.mp hpt
      exact ⟨[], by simp [hp]⟩
  | cons c rest ih =>
    rw [containsSub, Bool.or_eq_true, isPre_exists, ih]
    constructor
    · rintro (⟨t, ht⟩ | ⟨s, t, hst⟩)
      · exact ⟨[], t, by simpa using ht⟩
      · exact ⟨c :: s, t, by simp [hst]⟩
    · rintro ⟨s, t, hst⟩
      cases s with
      | nil => exact Or.inl ⟨t, by simpa using hst⟩
      | cons a s2 =>
        rw [List.cons_append, List.cons_append] at hst
        injection hst with h1 h2
        subst h1
        exact Or.inr ⟨s2, t, h2⟩

theorem space_positions (D N : List Char) (hdig : ∀ c ∈ D, c.isDigit = true)
    (hns : ∀ c ∈ N, c.isWhitespace = false) (j : ℕ)
    (hsp : (notokPre ++ (D ++ (dashSep ++ N)))[j]? = some ' ') :
    j = 3 ∨ j = 6 ∨ j = 7 + D.length ∨ j = 9 + D.length := by
  have hlen7 : notokPre.length = 7 := rfl
  by_cases h7 : j < 7
  · rw [List.getElem?_append, if_pos (by rw [hlen7]; omega)] at hsp
    interval_cases j <;> simp [notokPre] at hsp <;> simp
  · push_neg at h7
    rw [List.getElem?_append_right (by rw [hlen7]; omega), hlen7] at hsp
    by_cases hD : j - 7 < D.length
    · rw [List.getElem?_append, if_pos hD] at hsp
      exact absurd (hdig ' ' (List.getElem?_mem hsp)) (by decide)
    · push_neg at hD
      rw [List.getElem?_append_right hD] at hsp
      by_cases h3 : j - 7 - D.length < 3
      · rw [List.getElem?_append, if_pos (by simp [dashSep]; omega)] at hsp
        have hj3 : j - 7 - D.length = 0 ∨ j - 7 - D.length = 1 ∨ j - 7 - D.length = 2 := by
          omega
        rcases hj3 with hk | hk | hk <;> rw [hk] at hsp
        · right; right; left; omega
        · exact absurd hsp (by simp [dashSep])
        · right; right; right; omega
      · push_neg at h3
        rw [List.getElem?_append_right (by simp [dashSep]; omega)] at hsp
        exact absurd (hns ' ' (List.getElem?_mem hsp)) (by decide)

theorem no_tsr (D N : List Char) (hDne : D ≠ []) (hdig : ∀ c ∈ D, c.isDigit = true)
    (hns : ∀ c ∈ N, c.isWhitespace = false) (s t : List Char) :
    notokPre ++ (D ++ (dashSep ++ N)) ≠ s ++ ('t' :: ' ' :: 'r' :: t) := by
  intro heq
  set l := notokPre ++ (D ++ (dashSep ++ N)) with hl
  have hD1 : 1 ≤ D.length := List.length_pos.mpr hDne
  have h0 : l[s.length]? = some 't' := by
    rw [heq, List.getElem?_append_right (le_refl _)]
    simp
  have h1 : l[s.length + 1]? = some ' ' := by
    rw [heq, List.getElem?_append_right (by omega),
      show s.length + 1 - s.length = 1 from by omega]
    simp
  have h2 : l[s.length + 2]? = some 'r' := by
    rw [heq, List.getElem?_append_right (by omega),
      show s.length + 2 - s.length = 2 from by omega]
    simp
  rcases space_positions D N hdig hns (s.length + 1) h1 with hc | hc | hc | hc
  · -- the space of "not " at index 3: the following char is 'o', not 'r'
    have h4 : l[4]? = some 'o' := by
      rw [hl, List.getElem?_append, if_pos (by simp [notokPre])]
      simp [notokPre]
    rw [show s.length + 2 = 4 from by omega, h4] at h2
    exact absurd h2 (by simp)
  · -- the space after "ok" at index 6: the preceding char is 'k', not 't'
    have h5 : l[5]? = some 'k' := by
      rw [hl, List.getElem?_append, if_pos (by simp [notokPre])]
      simp [notokPre]
    rw [show s.length = 5 from by omega, h5] at h0
    exact absurd h0 (by simp)
  · -- the space right after the number: the preceding char is a digit, not 't'
    have h6 : l[s.length]? = D[D.length - 1]? := by
      rw [hl, List.getElem?_append_right (by simp [notokPre]; omega),
        List.getElem?_append, if_pos (by simp [notokPre]; omega)]
      congr 1
      simp [notokPre]
      omega
    rw [h6] at h0
    exact absurd (hdig 't' (List.getElem?_mem h0)) (by decide)
  · -- the space right before the name: the preceding char is the dash, not 't'
    have h8 : l[s.length]? = some '-' := by
      rw [hl, List.getElem?_append_right (by simp [notokPre]; omega),
        List.getElem?_append_right (by simp [notokPre]; omega),
        List.getElem?_append, if_pos (by simp [notokPre, dashSep]; omega)]
      rw [show s.length - notokPre.length - D.length = 1 from by simp [notokPre]; omega]
      simp [dashSep]
    rw [h8] at h0
    exact absurd h0 (by simp)

theorem no_marker (D N : List Char) (hDne : D ≠ []) (hdig : ∀ c ∈ D, c.isDigit = true)
    (hns : ∀ c ∈ N, c.isWhitespace = false) :
    containsSub testResultsMarker (notokPre ++ (D ++ (dashSep ++ N))) = false := by
  cases hc : containsSub testResultsMarker (notokPre ++ (D ++ (dashSep ++ N))) with
  | false => rfl
  | true =>
    exfalso
    obtain ⟨s, t, hst⟩ := (containsSub_exists _ _).mp hc
    apply no_tsr D N hDne hdig hns (s ++ "- Tes".data) ("esults:".data ++ t)
    rw [hst, show testResultsMarker = "- Tes".data ++ ('t' :: ' ' :: 'r' :: "esults:".data)
      from rfl]
    simp [List.append_assoc]

theorem match_notok_structured (D N : List Char)
    (d : Char) (ds : List Char) (hD : D = d :: ds) (hdig : ∀ c ∈ D, c.isDigit = true)
    (nh : Char) (nt : List Char) (hN : N = nh :: nt)
    (hns : ∀ c ∈ N, c.isWhitespace = false) :
    match_notok (notokPre ++ (D ++ (dashSep ++ N))) = some N := by
  have hshape : notokPre ++ (D ++ (dashSep ++ N)) =
      'n' :: 'o' :: 't' :: ' ' :: 'o' :: 'k' :: ' ' :: (D ++ (' ' :: '-' :: ' ' :: N)) := by
    simp [notokPre, dashSep]
  rw [hshape]
  rw [show match_notok
        ('n' :: 'o' :: 't' :: ' ' :: 'o' :: 'k' :: ' ' :: (D ++ (' ' :: '-' :: ' ' :: N))) =
      (if (' ' : Char).isWhitespace = true then
        if ((dropWs (D ++ (' ' :: '-' :: ' ' :: N))).takeWhile Char.isDigit).isEmpty then none
        else
          match dropWs ((dropWs (D ++ (' ' :: '-' :: ' ' :: N))).dropWhile Char.isDigit) with
          | '-' :: r3 =>
            if ((dropWs r3).takeWhile (fun c => !c.isWhitespace)).isEmpty then none
            else some ((dropWs r3).takeWhile (fun c => !c.isWhitespace))
          | _ => none
      else none) from rfl]
  rw [if_pos (by decide)]
  have hd : dropWs (D ++ (' ' :: '-' :: ' ' :: N)) = D ++ (' ' :: '-' :: ' ' :: N) := by
    rw [hD, List.cons_append]
    exact dropWhile_cons_neg _ _ _ (digit_not_ws d (hdig d (by simp [hD])))
  rw [hd]
  obtain ⟨htake, hdrop⟩ :=
    takeWhile_all_append Char.isDigit ' ' (by decide) D ('-' :: ' ' :: N) hdig
  rw [htake, hdrop]
  rw [show dropWs (' ' :: '-' :: ' ' :: N) = '-' :: ' ' :: N from by
    unfold dropWs
    rw [List.dropWhile_cons, if_pos (by decide)]
    exact dropWhile_cons_neg _ _ _ (by decide)]
  rw [hD]
  show (if (d :: ds).isEmpty = true then none else _) = some N
  rw [if_neg (by simp)]
  show (if ((dropWs (' ' :: N)).takeWhile (fun c => !c.isWhitespace)).isEmpty = true then none
      else some ((dropWs (' ' :: N)).takeWhile (fun c => !c.isWhitespace))) = some N
  have hdw : dropWs (' ' :: N) = N := by
    unfold dropWs
    rw [List.dropWhile_cons, if_pos (by decide), hN]
    exact dropWhile_cons_neg _ _ _ (by simp [hns nh (by simp [hN])])
  rw [hdw]
  have htok : N.takeWhile (fun c => !c.isWhitespace) = N :=
    takeWhile_all _ N (fun c hc => by simp [hns c hc])
  rw [htok]
  rw [if_neg (by simp [hN])]

theorem parseStep_notok (st : ParseState) (raw : String)
    (hstrip : strip raw = raw)
    (hcont : containsSub testResultsMarker raw.data = false)
    (g : List Char) (hm : match_notok raw.data = some g) :
    parseStep st raw = openSuite st (strip ⟨g⟩) raw true := by
  show (if containsSub testResultsMarker (strip raw).data = true then
      openSuite st
        (match mOldSearch (strip raw).data with
          | some g2 => strip ⟨g2⟩
          | none => strip ⟨takeUntilSub testResultsMarker (strip raw).data⟩)
        (strip raw) (match_notok (strip raw).data).isSome
    else
      match match_notok (strip raw).data with
      | some g2 => openSuite st (strip ⟨g2⟩) (strip raw) true
      | none =>
        match st.currentSuite with
        | some _ => { st with currentLines := st.currentLines ++ [strip raw] }
        | none => st) = openSuite st (strip ⟨g⟩) raw true
  rw [hstrip, hcont, hm]
  rw [if_neg (by simp)]

/-- Claim C3: for every well-formed failure-record line
`"not ok " ++ num ++ " - " ++ name` — `num` a non-empty digit string and
`name` a non-empty whitespace-free token, the shape the source regex
`not ok\s+\d+\s*-\s*(\S+)` captures — `parse_log_sections` captures the suite
name exactly equal to `name`, and the trigger line itself is retained as the
first (and here only) line of that suite's content. -/
theorem parse_notok_line (num name : String)
    (hnum : num ≠ "") (hdig : ∀ c ∈ num.data, c.isDigit = true)
    (hname : name ≠ "") (hns : ∀ c ∈ name.data, c.isWhitespace = false) :
    parse_log_sections ("not ok " ++ num ++ " - " ++ name) =
      [(name, ["not ok " ++ num ++ " - " ++ name])] := by
  have hdnum : num.data ≠ [] := by
    intro h
    apply hnum
    cases num with
    | mk d =>
      simp only at h
      rw [h]
  have hdname : name.data ≠ [] := by
    intro h
    apply hname
    cases name with
    | mk d =>
      simp only at h
      rw [h]
  have hdata : ("not ok " ++ num ++ " - " ++ name).data =
      notokPre ++ (num.data ++ (dashSep ++ name.data)) := by
    rw [show ("not ok " ++ num ++ " - " ++ name).data =
        (("not ok ".data ++ num.data) ++ " - ".data) ++ name.data from rfl]
    rw [show "not ok ".data = notokPre from rfl, show " - ".data = dashSep from rfl]
    simp [List.append_assoc]
  obtain ⟨d, ds, hD⟩ := List.exists_cons_of_ne_nil hdnum
  obtain ⟨nh, nt, hN⟩ := List.exists_cons_of_ne_nil hdname
  rcases List.eq_nil_or_concat name.data with hnil | ⟨ninit, nlast, hconcat⟩
  · exact absurd hnil hdname
  · rw [List.concat_eq_append] at hconcat
    have hnlast : nlast.isWhitespace = false := hns nlast (by rw [hconcat]; simp)
    have hstripL : stripL ("not ok " ++ num ++ " - " ++ name).data =
        ("not ok " ++ num ++ " - " ++ name).data := by
      rw [hdata, hconcat]
      rw [show notokPre ++ (num.data ++ (dashSep ++ (ninit ++ [nlast]))) =
          'n' :: ((['o', 't', ' ', 'o', 'k', ' '] ++ (num.data ++ (dashSep ++ ninit)))
            ++ [nlast]) from by simp [notokPre, dashSep]]
      exact stripL_eq_self _ _ _ (by decide) hnlast
    have hstrip : strip ("not ok " ++ num ++ " - " ++ name) =
        ("not ok " ++ num ++ " - " ++ name) := by
      show (⟨stripL ("not ok " ++ num ++ " - " ++ name).data⟩ : String) = _
      rw [hstripL]
    have hcont : containsSub testResultsMarker ("not ok " ++ num ++ " - " ++ name).data
        = false := by
      rw [hdata]
      exact no_marker num.data name.data hdnum hdig hns
    have hmatch : match_notok ("not ok " ++ num ++ " - " ++ name).data = some name.data := by
      rw [hdata]
      exact match_notok_structured num.data name.data d ds hD hdig nh nt hN hns
    have hnl : '\n' ∉ ("not ok " ++ num ++ " - " ++ name).data := by
      rw [hdata]
      intro hm
      rcases List.mem_append.mp hm with hm | hm
      · exact absurd hm (by decide)
      · rcases List.mem_append.mp hm with hm | hm
        · exact absurd (hdig _ hm) (by decide)
        · rcases List.mem_append.mp hm with hm | hm
          · exact absurd hm (by decide)
          · exact absurd (hns _ hm) (by decide)
    have hSne : ("not ok " ++ num ++ " - " ++ name).data ≠ [] := by
      rw [hdata]
      simp [notokPre]
    have hsname : strip (⟨name.data⟩ : String) = name := by
      show (⟨stripL name.data⟩ : String) = name
      rw [stripL_eq_self_of_no_ws name.data hns]
    show parse_log_sections _ = _
    unfold parse_log_sections
    rw [splitlines_no_newline _ hSne hnl]
    dsimp only [List.map_cons, List.map_nil, List.foldl_cons, List.foldl_nil]
    rw [show (⟨("not ok " ++ num ++ " - " ++ name).data⟩ : String) =
        "not ok " ++ num ++ " - " ++ name from rfl]
    rw [parseStep_notok ⟨[], none, []⟩ _ hstrip hcont name.data hmatch]
    rw [hsname]
    rfl

/-- Witness for C3 at the concrete line `not ok 1 - A`. -/
theorem parse_notok_line_witness :
    parse_log_sections ("not ok " ++ "1" ++ " - " ++ "A") =
      [("A", ["not ok " ++ "1" ++ " - " ++ "A"])] :=
  parse_notok_line "1" "A" (by decide) (by decide) (by decide) (by decide)

end CompareTap
